import Mathlib

/-!
Verification of the substreams parallel backfill orchestrator.

Shallow embedding of the orchestrator code of this repository:

* `block.Segmenter` (src/unnamed/part_003, package `block`)
* `orchestrator.Squashable` / `orchestrator.Squasher` (src/orchestrator/squasher.go)
* `stage.Stages` (src/orchestrator/stage/stages.go)
* `tracking.bytesMeter` (src/tracking/bytes.go)
* `work.Plan.NextJob` (modelled from the spec; only its tests are in the sources)

Go `uint64` values are modelled as `Nat`.  Arithmetic in the code paths we
verify never overflows `uint64` in the regimes stated by the theorems
(quotients and sums stay far below `2^64`); subtraction truncation is noted
at each definition where Go would wrap.  Where wrap-around is actually
observable (the bytes meter's `uint64(n)` conversion of a negative `int`),
it is modelled explicitly with `% 2^64`.

Store I/O (`LoadFrom`, `Merge`, `WriteState`, `DeletePartialFile`) and the
notifier are external collaborators; their invocations are modelled as an
emitted event trace, and are assumed not to fail (storage errors and context
cancellation abort a run but are outside these functional claims).
-/

namespace Substreams

/-- `block.Range`: half-open interval `[startBlock, exclusiveEndBlock)`. -/
structure Range where
  startBlock : Nat
  exclusiveEndBlock : Nat
deriving DecidableEq, Repr

/-- `block.Segmenter` (src/unnamed/part_003): interval, initial block and
exclusive end block.  The `count` field of the Go struct is always
`computeCount`, so we compute it on demand instead of storing it. -/
structure Segmenter where
  interval : Nat
  initialBlock : Nat
  exclusiveEndBlock : Nat
deriving DecidableEq, Repr

namespace Segmenter

/-- `Segmenter.computeCount`: `lastSegment - initSegment + 1`.
Go computes the subtraction in `uint64` and converts to `int`; `Nat`
truncated subtraction agrees with Go whenever
`initialBlock / interval ≤ exclusiveEndBlock / interval` (in particular
whenever `initialBlock ≤ exclusiveEndBlock`), which holds in every theorem
below and in the concrete counterexamples. -/
def computeCount (s : Segmenter) : Nat :=
  s.exclusiveEndBlock / s.interval - s.initialBlock / s.interval + 1

/-- `Segmenter.firstRange`. -/
def firstRange (s : Segmenter) : Option Range :=
  if s.exclusiveEndBlock < s.initialBlock then none
  else
    let floorLowerBound := s.initialBlock - s.initialBlock % s.interval
    let upperBound := floorLowerBound + s.interval
    some ⟨s.initialBlock, min upperBound s.exclusiveEndBlock⟩

/-- `Segmenter.rangeFromBegin` (for `idx > 0`). -/
def rangeFromBegin (s : Segmenter) (idx : Nat) : Option Range :=
  if s.computeCount ≤ idx then none
  else
    let baseBlock := s.initialBlock - s.initialBlock % s.interval + idx * s.interval
    some ⟨baseBlock, min (baseBlock + s.interval) s.exclusiveEndBlock⟩

/-- `Segmenter.Range`.  Go takes an `int` index and returns `nil` for
negative indices; we model indices as `Nat` (the claims quantify over
`0 ≤ k`). -/
def range (s : Segmenter) (idx : Nat) : Option Range :=
  if idx = 0 then s.firstRange else s.rangeFromBegin idx

/-- `Segmenter.IndexForBlock`: `blockNum/interval - initialBlock/interval`,
computed in `uint64` then converted to `int` in Go.  `Nat` truncated
subtraction agrees with Go whenever the block is at or after the initial
segment, which is the case at every use below. -/
def indexForBlock (s : Segmenter) (blockNum : Nat) : Nat :=
  blockNum / s.interval - s.initialBlock / s.interval
end Segmenter

/-- The first-segment formula of the specification, verbatim:
`[b0, min(ceil(b0/I)*I, bN))` with `ceil(b0/I) = (b0 + I - 1) / I`.
Used only to compare the spec's words against `Segmenter.firstRange`. -/
def specFirstRange (s : Segmenter) : Range :=
  ⟨s.initialBlock,
    min ((s.initialBlock + s.interval - 1) / s.interval * s.interval) s.exclusiveEndBlock⟩

/-- `tracking.bytesMeter` (src/tracking/bytes.go): the two counters are Go
`uint64` fields, held below `2^64`. -/
structure BytesMeter where
  bytesWritten : Nat
  bytesRead : Nat
deriving DecidableEq, Repr

/-- Go conversion `uint64(n)` of an `int`: two's-complement reinterpretation,
i.e. the canonical representative of `n` modulo `2^64`. -/
def uint64OfInt (n : Int) : Nat :=
  (n % (2 ^ 64 : Int)).toNat

/-- `bytesMeter.AddBytesWritten`: panics (modelled as `none`) when `n < 0`,
otherwise adds `uint64(n)` to `bytesWritten` (wrapping `uint64` addition). -/
def addBytesWritten (b : BytesMeter) (n : Int) : Option BytesMeter :=
  if n < 0 then none
  else some { b with bytesWritten := (b.bytesWritten + uint64OfInt n) % 2 ^ 64 }

/-- `bytesMeter.AddBytesRead`: no negativity check; adds `uint64(n)` to
`bytesRead` (wrapping `uint64` addition). -/
def addBytesRead (b : BytesMeter) (n : Int) : BytesMeter :=
  { b with bytesRead := (b.bytesRead + uint64OfInt n) % 2 ^ 64 }

/-! ## The Squasher (src/orchestrator/squasher.go)

The squasher's effects on its external collaborators (the store and the
notifier) are recorded as an event trace: `merge r` stands for
`LoadFrom(r)` followed by `Merge`, `writeState e` for `WriteState(e)`
(persisting the complete snapshot ending at `e`), `deleteFragment e` for
`DeletePartialFile(e)`, and `notify name e` for `notifier.Notify(name, e)`.
-/

/-- One store/notifier side effect of the squasher. -/
inductive Event where
  | merge (r : Range)
  | writeState (e : Nat)
  | deleteFragment (e : Nat)
  | notify (name : String) (e : Nat)
deriving DecidableEq, Repr

/-- `orchestrator.Squashable`.  `moduleInitialBlock` and `storeInitialBlock`
are the `ModuleInitialBlock` and `StoreInitialBlock` fields of the backing
`state.Store` (`s.builder`); the store's key-value content itself is
irrelevant to the claims and is not modelled. -/
structure Squashable where
  name : String
  moduleInitialBlock : Nat
  storeInitialBlock : Nat
  ranges : List Range
  storeSaveInterval : Nat
  targetExclusiveBlock : Nat
  nextExpectedStartBlock : Nat
  targetReached : Bool
deriving DecidableEq, Repr

/-- Ordering of `block.Ranges` (spec §3: ordered first by `start`, then by
`exclusiveEnd`). -/
def rangeLE (a b : Range) : Bool :=
  a.startBlock < b.startBlock ||
    (a.startBlock == b.startBlock && a.exclusiveEndBlock ≤ b.exclusiveEndBlock)

/-- Insert into a sorted list of ranges. -/
def insertRange (r : Range) : List Range → List Range
  | [] => [r]
  | x :: xs => if rangeLE r x then r :: x :: xs else x :: insertRange r xs

/-- `sort.Sort(s.ranges)`: sorting by `(start, exclusiveEnd)`.  Go's
`sort.Sort` is unstable, but equal keys here are equal `Range` values, so
the sorted list of values is uniquely determined. -/
def sortRanges (l : List Range) : List Range :=
  l.foldr insertRange []

/-- `Squashable.cumulateBoundedRange`: a range ending at or before the
store's initial block is dropped; otherwise it is appended and the pending
list re-sorted. -/
def cumulateBoundedRange (s : Squashable) (blockRange : Range) : Squashable :=
  if blockRange.exclusiveEndBlock ≤ s.storeInitialBlock then s
  else { s with ranges := sortRanges (s.ranges ++ [blockRange]) }

/-- The loop body of `Squashable.mergeAvailablePartials`, with the mutable
state (`nextExpectedStartBlock`, `targetReached`, `ranges`) made explicit;
returns the final values together with the emitted events.  The loop
exits when the pending list is empty or its head does not start at
`nextExpectedStartBlock`. -/
def mergeLoop (name : String) (interval target : Nat) :
    Nat → Bool → List Range → Nat × Bool × List Range × List Event
  | next, tr, [] => (next, tr, [], [])
  | next, tr, r :: rest =>
    if next ≠ r.startBlock then (next, tr, r :: rest, [])
    else
      let persistEv :=
        if r.exclusiveEndBlock % interval == 0 then Event.writeState r.exclusiveEndBlock
        else Event.deleteFragment r.exclusiveEndBlock
      let hitTarget := r.exclusiveEndBlock == target
      let notifyEvs := if hitTarget then [Event.notify name r.exclusiveEndBlock] else []
      let out := mergeLoop name interval target r.exclusiveEndBlock
        (if hitTarget then true else tr) rest
      (out.1, out.2.1, out.2.2.1,
        Event.merge r :: persistEv :: (notifyEvs ++ out.2.2.2))

/-- `Squashable.mergeAvailablePartials` (context cancellation and store
errors aside). -/
def mergeAvailablePartials (s : Squashable) : Squashable × List Event :=
  let out := mergeLoop s.name s.storeSaveInterval s.targetExclusiveBlock
    s.nextExpectedStartBlock s.targetReached s.ranges
  ({ s with nextExpectedStartBlock := out.1, targetReached := out.2.1,
            ranges := out.2.2.1 },
   out.2.2.2)

/-- Modelled from the spec: `block.Range.Split` is not among the provided
sources (only its caller `Squashable.squash` is).  Spec §4.F step 1: "Splits
`r` at multiples of `I` into the minimal covering sequence of segment-aligned
sub-ranges."  Recursion from `start`: each piece ends at the next multiple
of the interval, capped at `stop`.  Structural recursion on a fuel bound,
so that the definition evaluates by kernel reduction; `Range.split`
supplies the fuel. -/
def splitAux (interval : Nat) : Nat → Nat → Nat → List Range
  | 0, _, _ => []
  | _fuel + 1, start, stop =>
    if interval = 0 ∨ stop ≤ start then []
    else
      let nxt := min stop ((start / interval + 1) * interval)
      ⟨start, nxt⟩ :: splitAux interval _fuel nxt stop

/-- `blockRange.Split(storeSaveInterval)`; see `splitAux`: the fuel
`stop - start` is enough because each step advances `start` by at least
one block. -/
def Range.split (r : Range) (interval : Nat) : List Range :=
  splitAux interval (r.exclusiveEndBlock - r.startBlock) r.startBlock r.exclusiveEndBlock

/-- The first loop of `Squashable.squash`: for each sub-range, error out if
it starts before the module's initial block, otherwise cumulate it into the
pending list. -/
def cumulateWithCheck (s : Squashable) : List Range → Squashable × Option String
  | [] => (s, none)
  | br :: rest =>
    if br.startBlock < s.moduleInitialBlock then
      (s, some ("module \"" ++ s.name ++ "\": received a squash request for a start block " ++
        toString br.startBlock ++ " prior to the module's initial block " ++
        toString s.moduleInitialBlock))
    else cumulateWithCheck (cumulateBoundedRange s br) rest

/-- The second loop of `Squashable.squash` calls `mergeAvailablePartials`
once per split sub-range; this iterates it `n` times, concatenating events. -/
def mergeMany (s : Squashable) : Nat → Squashable × List Event
  | 0 => (s, [])
  | n + 1 =>
    let out := mergeAvailablePartials s
    let out2 := mergeMany out.1 n
    (out2.1, out.2 ++ out2.2)

/-- `Squashable.squash`: split the incoming range, check-and-cumulate each
piece (returning the error and performing no merge if a piece starts before
the module's initial block), then drain mergeable partials. -/
def squash (s : Squashable) (blockRange : Range) : Squashable × List Event × Option String :=
  let splitBlockRanges := Range.split blockRange s.storeSaveInterval
  let cum := cumulateWithCheck s splitBlockRanges
  match cum.2 with
  | some err => (cum.1, [], some err)
  | none =>
    let out := mergeMany cum.1 splitBlockRanges.length
    (out.1, out.2, none)

/-- A sequence of `squash` calls, stopping at the first error (the caller
aborts the request on a squash error). -/
def squashSeq (s : Squashable) : List Range → Squashable × List Event × Option String
  | [] => (s, [], none)
  | r :: rest =>
    let out := squash s r
    match out.2.2 with
    | some err => (out.1, out.2.1, some err)
    | none =>
      let out2 := squashSeq out.1 rest
      (out2.1, out.2.1 ++ out2.2.1, out2.2.2)

/-- `NewSquashable` for a store with no prior persisted state
(`NewSquashable(builder.Clone(builder.ModuleInitialBlock), target, interval,
builder.ModuleInitialBlock)` in `NewSquasher`): the next expected start
block and the store's initial block are the module's initial block. -/
def newSquashable (name : String) (moduleInitialBlock target interval : Nat) : Squashable :=
  { name := name
    moduleInitialBlock := moduleInitialBlock
    storeInitialBlock := moduleInitialBlock
    ranges := []
    storeSaveInterval := interval
    targetExclusiveBlock := target
    nextExpectedStartBlock := moduleInitialBlock
    targetReached := false }

/-- Modelled from the spec: `block.Ranges.String()` is not among the
provided sources; the spec only requires "a human-readable description of
which modules are missing which ranges", so ranges are rendered as
comma-separated `start-end` pairs. -/
def rangesString (l : List Range) : String :=
  String.intercalate "," (l.map (fun r => toString r.startBlock ++ "-" ++ toString r.exclusiveEndBlock))

/-- The error messages collected by `Squasher.StoresReady` for one
squashable, in code order: target first, pending ranges second. -/
def storesReadyErrs (l : List Squashable) : List String :=
  l.flatMap (fun v =>
    (if !v.targetReached then ["module \"" ++ v.name ++ "\" target not reached"] else []) ++
    (if !v.ranges.isEmpty then
      ["module \"" ++ v.name ++ "\" missing ranges " ++ rangesString v.ranges] else []))

/-- `Squasher.StoresReady`: `none` is the `nil` (success) return; the
squashables of the Go map are modelled as a list (Go map iteration order is
unspecified, which only permutes the error message). -/
def storesReady (l : List Squashable) : Option String :=
  let errs := storesReadyErrs l
  if errs.length ≠ 0 then some (String.intercalate "; " errs) else none

/-! ## The stage matrix (src/orchestrator/stage/stages.go)

`stage.Stages` holds a matrix `segmentStates[segment - segmentOffset][stage]`.
We model the matrix as a total function from absolute segment and stage
index to `UnitState`: `GetState` subtracts the offset before indexing, the
zero value of a grown row is `UnitPending`, and `NextJob` grows the matrix
before reading, so indexing by absolute segment with default `pending` is
exact.  The `FirstIndex`/`LastIndex` methods of `block.Segmenter` used here
are not among the provided sources; they are the first and last segment
index covered by the segmenter, and we carry their values directly:
`firstIndex`/`lastIndex` for the global segmenter and, for each stage, the
first index of that stage's segmenter in `stageFirst`. -/

/-- `stage.UnitState`. -/
inductive UnitState where
  | pending
  | scheduled
  | fragmentPresent
  | merging
  | completed
deriving DecidableEq, Repr

/-- `stage.Unit`: a (segment, stage) cell of the matrix. -/
structure JobUnit where
  segment : Nat
  stage : Nat
deriving DecidableEq, Repr

/-- `stage.Stages`; see the section comment for the representation. -/
structure Stages where
  firstIndex : Nat
  lastIndex : Nat
  stageFirst : List Nat
  state : Nat → Nat → UnitState

namespace Stages

/-- `s.stages[idx].segmenter.FirstIndex()` (indexing is always in bounds in
the Go code). -/
def stageFirstD (s : Stages) (idx : Nat) : Nat :=
  s.stageFirst.getD idx 0

/-- `Stages.dependenciesCompleted`. -/
def dependenciesCompleted (s : Stages) (u : JobUnit) : Bool :=
  if u.segment ≤ s.stageFirstD u.stage then true
  else if u.stage == 0 then true
  else (List.range u.stage).all fun i => s.state (u.segment - 1) i == .completed

/-- The per-unit test of the inner loop of `Stages.NextJob`: the unit is
pending, its stage's segmenter has reached this segment, and its
dependencies are completed (in code order). -/
def unitOk (s : Stages) (u : JobUnit) : Bool :=
  s.state u.segment u.stage == .pending &&
    s.stageFirstD u.stage ≤ u.segment &&
    s.dependenciesCompleted u

/-- Stage indices in the order the inner loop visits them: highest first. -/
def stagesDesc (s : Stages) : List Nat :=
  (List.range s.stageFirst.length).reverse

/-- Segment indices in the order the outer loop visits them:
`FirstIndex()` through `LastIndex()` ascending. -/
def segList (s : Stages) : List Nat :=
  List.range' s.firstIndex (s.lastIndex + 1 - s.firstIndex)

/-- The inner loop of `Stages.NextJob` over one segment. -/
def scanStageList (s : Stages) (seg : Nat) : List Nat → Option JobUnit
  | [] => none
  | st :: rest =>
    if s.unitOk ⟨seg, st⟩ then some ⟨seg, st⟩ else scanStageList s seg rest

/-- The outer loop of `Stages.NextJob` over the segments. -/
def scanSegments (s : Stages) : List Nat → Option JobUnit
  | [] => none
  | seg :: rest =>
    match scanStageList s seg (stagesDesc s) with
    | some u => some u
    | none => scanSegments s rest

/-- The unit selected by `Stages.NextJob` (the function also marks the unit
scheduled and returns `s.segmenter.Range(unit.Segment)`; the claims concern
the selection). -/
def nextJobUnit (s : Stages) : Option JobUnit :=
  scanSegments s (segList s)

/-- `Stages.NextJob` including the `markSegmentScheduled` state update. -/
def nextJob (s : Stages) : Option JobUnit × Stages :=
  match s.nextJobUnit with
  | some u =>
    (some u,
      { s with state := fun seg st =>
          if seg = u.segment ∧ st = u.stage then .scheduled else s.state seg st })
  | none => (none, s)

/-- All cells in scan order: segments ascending, stages descending within a
segment. -/
def candidates (s : Stages) : List JobUnit :=
  (s.segList).flatMap fun seg => (stagesDesc s).map fun st => ⟨seg, st⟩

/-- The claim's per-unit predicate: pending, started
(`segment ≥ stage's first index`), and dependencies completed in the sense
"in its stage's first segment, or stage 0, or every lower stage of the
previous segment completed". -/
def claimOk (s : Stages) (u : JobUnit) : Bool :=
  s.state u.segment u.stage == .pending &&
    s.stageFirstD u.stage ≤ u.segment &&
    (u.segment == s.stageFirstD u.stage ||
      u.stage == 0 ||
      (List.range u.stage).all fun i => s.state (u.segment - 1) i == .completed)

end Stages

/-! ## The work plan scheduler surface (`work.Plan.NextJob`)

`work.Plan` itself is not among the provided sources; only its unit tests
are (src/unnamed/part_003, `TestPlan_NextJob`).  The model below is
modelled from the spec (§4.C–§4.D) and agrees with every case of
`TestPlan_NextJob`. -/

/-- `work.Job` (the fields the scheduler claims touch). -/
structure Job where
  moduleName : String
  priority : Int
  requestRange : Range
deriving DecidableEq, Repr

/-- `work.Plan`'s job queues.  `readyJobs` is kept sorted by descending
priority by `prioritize()` (spec §4.C). -/
structure Plan where
  waitingJobs : List Job
  readyJobs : List Job
deriving DecidableEq, Repr

/-- Modelled from the spec: `work.Plan.NextJob` (§4.D): "`job`: the
highest-priority ready Job, removed from `readyJobs`; or `nil` when none
ready.  `moreComing`: `true` iff `waitingJobs` is non-empty OR `readyJobs`
still has items after removal."  With `readyJobs` sorted by descending
priority, the highest-priority job is its head. -/
def Plan.nextJob (p : Plan) : Option Job × Plan × Bool :=
  match p.readyJobs with
  | [] => (none, p, !p.waitingJobs.isEmpty)
  | j :: rest =>
    (some j, { p with readyJobs := rest }, !p.waitingJobs.isEmpty || !rest.isEmpty)

/-! ## Derived notions used to state the squasher claims -/

/-- The ranges merged into the store, in order, as recorded by the event
trace. -/
def mergedOf (evs : List Event) : List Range :=
  evs.filterMap fun e =>
    match e with
    | .merge r => some r
    | _ => none

/-- `chainFromB b rs`: the ranges `rs` form a contiguous chain whose first
range starts exactly at `b` (each range starts where the previous one
ended). -/
def chainFromB (b : Nat) : List Range → Bool
  | [] => true
  | r :: rest => (r.startBlock == b) && chainFromB r.exclusiveEndBlock rest

/-- The end of a contiguous chain starting at `b` (`b` itself if empty). -/
def chainEnd : Nat → List Range → Nat
  | b, [] => b
  | _, r :: rest => chainEnd r.exclusiveEndBlock rest

/-- The events one iteration of the merge loop emits for a merged range
`r`: the merge itself; then `WriteState` if `r` ends on a save-interval
boundary, else `DeletePartialFile`; then `Notify` exactly if `r` ends at
the target exclusive block. -/
def stepEvents (name : String) (interval target : Nat) (r : Range) : List Event :=
  Event.merge r ::
    ((if r.exclusiveEndBlock % interval == 0 then [Event.writeState r.exclusiveEndBlock]
      else [Event.deleteFragment r.exclusiveEndBlock]) ++
     (if r.exclusiveEndBlock == target then [Event.notify name r.exclusiveEndBlock]
      else []))

/-! ## Helper lemmas -/

/-- `b0 - b0 % I` (the code's floor-aligned base) is `floor(b0/I)·I`. -/
theorem floorBase_eq (b0 I : Nat) : b0 - b0 % I = b0 / I * I := by
  have hdm := Nat.div_add_mod b0 I
  have : I * (b0 / I) = b0 / I * I := Nat.mul_comm _ _
  omega

/-! ## C3: the Segmenter's range formulas -/

/-- C3 counterexample: for the Segmenter `(I=10, b0=20, bN=35)` (which
satisfies the claim's hypothesis `b0 < bN`), `Range(0)` is `[20, 30)` while
the claimed formula `[b0, min(ceil(b0/I)·I, bN))` yields the empty `[20, 20)`:
the claim fails whenever `I` divides `b0`. -/
theorem segmenter_range0_claim_cex :
    (20 : Nat) < 35 ∧
    Segmenter.range ⟨10, 20, 35⟩ 0 = some ⟨20, 30⟩ ∧
    specFirstRange ⟨10, 20, 35⟩ = ⟨20, 20⟩ ∧
    Segmenter.range ⟨10, 20, 35⟩ 0 ≠ some (specFirstRange ⟨10, 20, 35⟩) := by
  refine ⟨by norm_num, by decide, by decide, by decide⟩

/-- C3 (amended): for a Segmenter `(I, b0, bN)` with `0 < I` and `b0 < bN`,
`Range(0) = [b0, min(floor(b0/I)·I + I, bN))` and for `0 < k < Count()`,
`Range(k) = [base + k·I, min(base + (k+1)·I, bN))` with `base = floor(b0/I)·I`
(the spec's `ceil(b0/I)·I` upper bound for segment 0 is replaced by
`floor(b0/I)·I + I`; the two agree unless `I` divides `b0`). -/
theorem segmenter_range_formulas (I b0 bN : Nat) (hI : 0 < I) (h : b0 < bN) :
    Segmenter.range ⟨I, b0, bN⟩ 0 = some ⟨b0, min (b0 / I * I + I) bN⟩ ∧
    ∀ k, 0 < k → k < Segmenter.computeCount ⟨I, b0, bN⟩ →
      Segmenter.range ⟨I, b0, bN⟩ k =
        some ⟨b0 / I * I + k * I, min (b0 / I * I + (k + 1) * I) bN⟩ := by
  have hb := floorBase_eq b0 I
  constructor
  · rw [show Segmenter.range ⟨I, b0, bN⟩ 0 = Segmenter.firstRange ⟨I, b0, bN⟩ from rfl]
    simp only [Segmenter.firstRange]
    rw [if_neg (show ¬ (bN < b0) by omega), hb]
  · intro k hk hklt
    simp only [Segmenter.range]
    rw [if_neg (show ¬ (k = 0) by omega)]
    simp only [Segmenter.rangeFromBegin]
    rw [if_neg (show ¬ (Segmenter.computeCount ⟨I, b0, bN⟩ ≤ k) by omega)]
    have e2 : b0 - b0 % I + k * I + I = b0 / I * I + (k + 1) * I := by
      have hkk : (k + 1) * I = k * I + I := by ring
      omega
    have e1 : b0 - b0 % I + k * I = b0 / I * I + k * I := by omega
    rw [e2, e1]

/-- Witness for C3 (amended) at `(I, b0, bN) = (10, 5, 35)`, `k = 1`. -/
theorem segmenter_range_formulas_witness :
    Segmenter.range ⟨10, 5, 35⟩ 1 = some ⟨10, 20⟩ := by
  have h := (segmenter_range_formulas 10 5 35 (by norm_num) (by norm_num)).2 1
    (by norm_num) (by decide)
  simpa using h

/-! ## C4: IndexForBlock is a left inverse of Range on segment starts -/

/-- C4 counterexample: the Segmenter `(I=10, b0=15, bN=12)` has
`Count() = 1`, so `k = 0` is a valid index, yet `Range(0)` is `nil`
(`firstRange` bails out because `exclusiveEndBlock < initialBlock`), so
`IndexForBlock(Range(0).StartBlock)` dereferences a nil range in Go: the
claim fails for Segmenters whose end precedes their initial block. -/
theorem segmenter_index_claim_cex :
    Segmenter.computeCount ⟨10, 15, 12⟩ = 1 ∧
    Segmenter.range ⟨10, 15, 12⟩ 0 = none := by
  decide

/-- C4 (amended): for every Segmenter with `0 < interval` and
`initialBlock ≤ exclusiveEndBlock`, and every valid index `k < Count()`,
`Range(k)` exists and `IndexForBlock(Range(k).StartBlock) = k`. -/
theorem segmenter_indexForBlock_range (I b0 bN : Nat) (hI : 0 < I) (hle : b0 ≤ bN)
    (k : Nat) (hk : k < Segmenter.computeCount ⟨I, b0, bN⟩) :
    (Segmenter.range ⟨I, b0, bN⟩ k).map
      (fun r => Segmenter.indexForBlock ⟨I, b0, bN⟩ r.startBlock) = some k := by
  have hb := floorBase_eq b0 I
  rcases Nat.eq_zero_or_pos k with hk0 | hkpos
  · subst hk0
    rw [show Segmenter.range ⟨I, b0, bN⟩ 0 = Segmenter.firstRange ⟨I, b0, bN⟩ from rfl]
    simp only [Segmenter.firstRange]
    rw [if_neg (show ¬ (bN < b0) by omega)]
    simp only [Option.map_some', Option.some.injEq, Segmenter.indexForBlock]
    omega
  · simp only [Segmenter.range]
    rw [if_neg (show ¬ (k = 0) by omega)]
    simp only [Segmenter.rangeFromBegin]
    rw [if_neg (show ¬ (Segmenter.computeCount ⟨I, b0, bN⟩ ≤ k) by omega)]
    simp only [Option.map_some', Option.some.injEq, Segmenter.indexForBlock]
    have hstart : b0 - b0 % I + k * I = (b0 / I + k) * I := by
      have hx : (b0 / I + k) * I = b0 / I * I + k * I := by ring
      omega
    rw [hstart, Nat.mul_div_cancel _ hI]
    omega

/-- Witness for C4 (amended) at `(I, b0, bN) = (10, 15, 35)`, `k = 1`. -/
theorem segmenter_indexForBlock_range_witness :
    (Segmenter.range ⟨10, 15, 35⟩ 1).map
      (fun r => Segmenter.indexForBlock ⟨10, 15, 35⟩ r.startBlock) = some 1 :=
  segmenter_indexForBlock_range 10 15 35 (by norm_num) (by norm_num) 1 (by decide)

/-! ## C5: StoresReady -/

/-- `storesReadyErrs` is empty exactly when every squashable reached its
target with an empty pending list. -/
theorem storesReadyErrs_nil_iff (l : List Squashable) :
    storesReadyErrs l = [] ↔ ∀ v ∈ l, v.targetReached = true ∧ v.ranges = [] := by
  induction l with
  | nil => simp [storesReadyErrs]
  | cons v rest ih =>
    have hcons : storesReadyErrs (v :: rest) =
        ((if (!v.targetReached) = true
            then ["module \"" ++ v.name ++ "\" target not reached"] else []) ++
         (if (!v.ranges.isEmpty) = true
            then ["module \"" ++ v.name ++ "\" missing ranges " ++ rangesString v.ranges]
            else [])) ++ storesReadyErrs rest := by
      simp [storesReadyErrs]
    rw [hcons, List.append_eq_nil, List.append_eq_nil, ih]
    simp only [List.mem_cons, forall_eq_or_imp]
    constructor
    · rintro ⟨⟨hA, hB⟩, hrest⟩
      refine ⟨⟨?_, ?_⟩, hrest⟩
      · cases htr : v.targetReached
        · rw [htr] at hA
          simp at hA
        · rfl
      · rcases hr : v.ranges with _ | ⟨a, as⟩
        · rfl
        · rw [hr] at hB
          simp at hB
    · rintro ⟨⟨h1, h2⟩, h3⟩
      exact ⟨⟨by simp [h1], by simp [h2]⟩, h3⟩

/-- C5: `Squasher.StoresReady` succeeds (returns `nil`) iff every
Squashable has `targetReached` and an empty pending list; otherwise the
error joins, for each offending module, a "target not reached" message
and/or a "missing ranges" message listing its pending ranges. -/
theorem storesReady_spec (l : List Squashable) :
    (storesReady l = none ↔ ∀ v ∈ l, v.targetReached = true ∧ v.ranges = []) ∧
    (∀ v ∈ l, v.targetReached = false →
      ("module \"" ++ v.name ++ "\" target not reached") ∈ storesReadyErrs l) ∧
    (∀ v ∈ l, v.ranges ≠ [] →
      ("module \"" ++ v.name ++ "\" missing ranges " ++ rangesString v.ranges)
        ∈ storesReadyErrs l) ∧
    (∀ msg, storesReady l = some msg →
      msg = String.intercalate "; " (storesReadyErrs l)) := by
  refine ⟨?_, ?_, ?_, ?_⟩
  · rw [← storesReadyErrs_nil_iff]
    simp only [storesReady]
    constructor
    · intro h
      by_contra hne
      have : (storesReadyErrs l).length ≠ 0 := by
        intro hlen
        exact hne (List.length_eq_zero.mp hlen)
      simp [this] at h
    · intro h
      simp [h]
  · intro v hv htr
    simp only [storesReadyErrs, List.mem_flatMap]
    refine ⟨v, hv, ?_⟩
    simp [htr]
  · intro v hv hr
    simp only [storesReadyErrs, List.mem_flatMap]
    refine ⟨v, hv, ?_⟩
    have : v.ranges.isEmpty = false := by
      cases h : v.ranges.isEmpty
      · rfl
      · exact absurd (List.isEmpty_iff.mp h) hr
    simp [this]
  · intro msg h
    simp only [storesReady] at h
    by_cases hlen : (storesReadyErrs l).length ≠ 0
    · simp only [if_pos hlen, Option.some.injEq] at h
      exact h.symm
    · simp [hlen] at h

/-- Witness for C5 at a ready and a non-ready squasher state. -/
theorem storesReady_spec_witness :
    storesReady [{ newSquashable "A" 0 20 10 with targetReached := true }] = none ∧
    storesReady [newSquashable "A" 0 20 10] ≠ none := by
  constructor
  · exact (storesReady_spec _).1.mpr (by simp [newSquashable])
  · intro h
    have := (storesReady_spec [newSquashable "A" 0 20 10]).1.mp h
      (newSquashable "A" 0 20 10) (by simp)
    simp [newSquashable] at this

/-! ## C7: Plan.NextJob (spec-modelled) -/

/-- C7: with `readyJobs` sorted by descending priority (the invariant
`prioritize()` maintains), `NextJob` removes and returns the head of
`readyJobs` — a job of maximal priority — or returns no job when none is
ready, and `moreComing` is true iff `waitingJobs` is non-empty or
`readyJobs` still has items after the removal. -/
theorem plan_nextJob_spec (p : Plan)
    (hs : p.readyJobs.Pairwise (fun a b => b.priority ≤ a.priority)) :
    (p.nextJob).1 = p.readyJobs.head? ∧
    (p.nextJob).2.1.readyJobs = p.readyJobs.tail ∧
    (p.nextJob).2.1.waitingJobs = p.waitingJobs ∧
    ((p.nextJob).2.2 = true ↔ (p.waitingJobs ≠ [] ∨ p.readyJobs.tail ≠ [])) ∧
    (∀ j ∈ p.readyJobs, ∀ jh, (p.nextJob).1 = some jh → j.priority ≤ jh.priority) := by
  rcases hp : p.readyJobs with _ | ⟨j, rest⟩
  · refine ⟨by simp [Plan.nextJob, hp], by simp [Plan.nextJob, hp],
      by simp [Plan.nextJob, hp], ?_, by simp [Plan.nextJob, hp]⟩
    simp [Plan.nextJob, hp, List.isEmpty_iff]
  · have hmax : ∀ b ∈ rest, b.priority ≤ j.priority := by
      have hps := hs
      rw [hp, List.pairwise_cons] at hps
      exact hps.1
    refine ⟨by simp [Plan.nextJob, hp], by simp [Plan.nextJob, hp],
      by simp [Plan.nextJob, hp], ?_, ?_⟩
    · simp [Plan.nextJob, hp, List.isEmpty_iff]
    · intro a ha jh hjh
      simp only [Plan.nextJob, hp] at hjh
      have hj : jh = j := by simpa using hjh.symm
      rw [hj]
      rcases List.mem_cons.mp ha with rfl | hmem
      · exact le_refl _
      · exact hmax a hmem

/-- Witness for C7 at a two-job ready queue. -/
theorem plan_nextJob_spec_witness :
    (Plan.nextJob ⟨[], [⟨"A", 3, ⟨0, 100⟩⟩, ⟨"B", 2, ⟨0, 100⟩⟩]⟩).1 =
      some ⟨"A", 3, ⟨0, 100⟩⟩ := by
  have h := plan_nextJob_spec ⟨[], [⟨"A", 3, ⟨0, 100⟩⟩, ⟨"B", 2, ⟨0, 100⟩⟩]⟩
    (by norm_num [List.pairwise_cons])
  simpa using h.1

/-! ## C10: the bytes meter -/

/-- C10: `AddBytesWritten(n)` panics exactly when `n < 0` and otherwise
adds `n` to `bytesWritten` (as wrapping `uint64` addition), while
`AddBytesRead(n)` is total and adds `uint64(n)` — for `n < 0` that is
`2^64 + n`, so a negative `n` can make `BytesRead()` decrease, as the last
conjunct shows at `bytesRead = 5`, `n = -1`. -/
theorem bytesMeter_spec (b : BytesMeter) (n : Int)
    (h1 : -2 ^ 63 ≤ n) (h2 : n < 2 ^ 63) :
    (addBytesWritten b n = none ↔ n < 0) ∧
    (0 ≤ n → addBytesWritten b n =
      some { b with bytesWritten := (b.bytesWritten + n.toNat) % 2 ^ 64 }) ∧
    (addBytesRead b n).bytesWritten = b.bytesWritten ∧
    (n < 0 → (addBytesRead b n).bytesRead =
      (b.bytesRead + (2 ^ 64 + n).toNat) % 2 ^ 64) ∧
    (0 ≤ n → (addBytesRead b n).bytesRead = (b.bytesRead + n.toNat) % 2 ^ 64) ∧
    (addBytesRead ⟨0, 5⟩ (-1)).bytesRead < 5 := by
  refine ⟨?_, ?_, rfl, ?_, ?_, ?_⟩
  · constructor
    · intro h
      by_contra hn
      simp [addBytesWritten, hn] at h
    · intro h
      simp [addBytesWritten, h]
  · intro h
    have hmod : uint64OfInt n = n.toNat := by
      simp only [uint64OfInt]
      omega
    simp only [addBytesWritten]
    rw [if_neg (not_lt.mpr h), hmod]
  · intro h
    have hmod : uint64OfInt n = (2 ^ 64 + n).toNat := by
      simp only [uint64OfInt]
      omega
    simp only [addBytesRead]
    rw [hmod]
  · intro h
    have hmod : uint64OfInt n = n.toNat := by
      simp only [uint64OfInt]
      omega
    simp only [addBytesRead]
    rw [hmod]
  · have hmod : uint64OfInt (-1) = 2 ^ 64 - 1 := by
      simp only [uint64OfInt]
      omega
    simp only [addBytesRead, hmod]
    norm_num

/-- Witness for C10 at `bytesWritten = 7`, `n = 3` and `n = -2`. -/
theorem bytesMeter_spec_witness :
    addBytesWritten ⟨7, 0⟩ 3 = some ⟨10, 0⟩ ∧
    addBytesWritten ⟨7, 0⟩ (-2) = none := by
  have h := bytesMeter_spec ⟨7, 0⟩ 3 (by norm_num) (by norm_num)
  have h' := bytesMeter_spec ⟨7, 0⟩ (-2) (by norm_num) (by norm_num)
  constructor
  · have := h.2.1 (by norm_num)
    simpa using this
  · exact h'.1.mpr (by norm_num)

/-! ## Squasher helper lemmas -/

theorem chainFromB_append (b : Nat) (l1 l2 : List Range) :
    chainFromB b (l1 ++ l2) = (chainFromB b l1 && chainFromB (chainEnd b l1) l2) := by
  induction l1 generalizing b with
  | nil => simp [chainFromB, chainEnd]
  | cons r t ih => simp [chainFromB, chainEnd, ih, Bool.and_assoc]

theorem chainEnd_append (b : Nat) (l1 l2 : List Range) :
    chainEnd b (l1 ++ l2) = chainEnd (chainEnd b l1) l2 := by
  induction l1 generalizing b with
  | nil => simp [chainEnd]
  | cons r t ih => simp [chainEnd, ih]

theorem mergedOf_append (e1 e2 : List Event) :
    mergedOf (e1 ++ e2) = mergedOf e1 ++ mergedOf e2 := by
  simp [mergedOf]

theorem mem_of_merge_mem {r : Range} {evs : List Event}
    (h : Event.merge r ∈ evs) : r ∈ mergedOf evs := by
  simp only [mergedOf, List.mem_filterMap]
  exact ⟨Event.merge r, h, rfl⟩

theorem mergedOf_nil : mergedOf [] = [] := rfl

theorem mergedOf_merge_cons (r : Range) (evs : List Event) :
    mergedOf (Event.merge r :: evs) = r :: mergedOf evs := by
  simp [mergedOf]

theorem mergedOf_write_cons (e : Nat) (evs : List Event) :
    mergedOf (Event.writeState e :: evs) = mergedOf evs := by
  simp [mergedOf]

theorem mergedOf_delete_cons (e : Nat) (evs : List Event) :
    mergedOf (Event.deleteFragment e :: evs) = mergedOf evs := by
  simp [mergedOf]

theorem mergedOf_notify_cons (nm : String) (e : Nat) (evs : List Event) :
    mergedOf (Event.notify nm e :: evs) = mergedOf evs := by
  simp [mergedOf]

/-- Everything `mergeLoop` does: the merged ranges form a contiguous
chain starting at `next`, the final next-expected block is the chain's
end, and the initial pending list splits into the merged prefix and the
untouched remainder. -/
theorem mergeLoop_spec (name : String) (interval target : Nat)
    (ranges : List Range) : ∀ (next : Nat) (tr : Bool),
    chainFromB next (mergedOf (mergeLoop name interval target next tr ranges).2.2.2) = true ∧
    (mergeLoop name interval target next tr ranges).1 =
      chainEnd next (mergedOf (mergeLoop name interval target next tr ranges).2.2.2) ∧
    ranges = mergedOf (mergeLoop name interval target next tr ranges).2.2.2 ++
      (mergeLoop name interval target next tr ranges).2.2.1 := by
  induction ranges with
  | nil =>
    intro next tr
    simp [mergeLoop, mergedOf, chainFromB, chainEnd]
  | cons r rest ih =>
    intro next tr
    by_cases hne : next = r.startBlock
    · subst hne
      obtain ⟨H1, H2, H3⟩ := ih r.exclusiveEndBlock
        (if (r.exclusiveEndBlock == target) = true then true else tr)
      clear ih
      cases hbd : (r.exclusiveEndBlock % interval == 0) <;>
        cases hht : (r.exclusiveEndBlock == target) <;>
        rw [hht] at H1 H2 H3 <;>
        simp only [Bool.false_eq_true, if_false, if_true, eq_self_iff_true] at H1 H2 H3 <;>
        refine ⟨?_, ?_, ?_⟩ <;>
        simp [mergeLoop, hbd, hht, mergedOf_merge_cons, mergedOf_write_cons,
          mergedOf_delete_cons, mergedOf_notify_cons, mergedOf_append, mergedOf_nil,
          chainFromB, chainEnd, H1, H2, ← H3]
    · simp [mergeLoop, if_pos hne, mergedOf, chainFromB, chainEnd]

/-- `mergeAvailablePartials`: merged ranges chain from
`nextExpectedStartBlock`, which afterwards equals the chain's end; the
pending list splits into the merged prefix and the remainder; every other
field is untouched. -/
theorem mergeAvailablePartials_spec (s : Squashable) :
    chainFromB s.nextExpectedStartBlock (mergedOf (mergeAvailablePartials s).2) = true ∧
    (mergeAvailablePartials s).1.nextExpectedStartBlock =
      chainEnd s.nextExpectedStartBlock (mergedOf (mergeAvailablePartials s).2) ∧
    s.ranges = mergedOf (mergeAvailablePartials s).2 ++ (mergeAvailablePartials s).1.ranges ∧
    (mergeAvailablePartials s).1.name = s.name ∧
    (mergeAvailablePartials s).1.moduleInitialBlock = s.moduleInitialBlock ∧
    (mergeAvailablePartials s).1.storeInitialBlock = s.storeInitialBlock ∧
    (mergeAvailablePartials s).1.storeSaveInterval = s.storeSaveInterval ∧
    (mergeAvailablePartials s).1.targetExclusiveBlock = s.targetExclusiveBlock := by
  obtain ⟨H1, H2, H3⟩ := mergeLoop_spec s.name s.storeSaveInterval s.targetExclusiveBlock
    s.ranges s.nextExpectedStartBlock s.targetReached
  exact ⟨H1, H2, H3, rfl, rfl, rfl, rfl, rfl⟩

/-- `mergeMany` (the second loop of `squash`, which calls
`mergeAvailablePartials` once per split sub-range): the same contract as a
single call. -/
theorem mergeMany_spec (n : Nat) : ∀ (s : Squashable),
    chainFromB s.nextExpectedStartBlock (mergedOf (mergeMany s n).2) = true ∧
    (mergeMany s n).1.nextExpectedStartBlock =
      chainEnd s.nextExpectedStartBlock (mergedOf (mergeMany s n).2) ∧
    s.ranges = mergedOf (mergeMany s n).2 ++ (mergeMany s n).1.ranges ∧
    (mergeMany s n).1.name = s.name ∧
    (mergeMany s n).1.moduleInitialBlock = s.moduleInitialBlock ∧
    (mergeMany s n).1.storeInitialBlock = s.storeInitialBlock ∧
    (mergeMany s n).1.storeSaveInterval = s.storeSaveInterval ∧
    (mergeMany s n).1.targetExclusiveBlock = s.targetExclusiveBlock := by
  induction n with
  | zero =>
    intro s
    exact ⟨rfl, rfl, rfl, rfl, rfl, rfl, rfl, rfl⟩
  | succ n ih =>
    intro s
    obtain ⟨A1, A2, A3, A4, A5, A6, A7, A8⟩ := mergeAvailablePartials_spec s
    obtain ⟨B1, B2, B3, B4, B5, B6, B7, B8⟩ := ih (mergeAvailablePartials s).1
    have hfst : (mergeMany s (n + 1)).1 = (mergeMany (mergeAvailablePartials s).1 n).1 := rfl
    have hsnd : (mergeMany s (n + 1)).2 =
        (mergeAvailablePartials s).2 ++ (mergeMany (mergeAvailablePartials s).1 n).2 := rfl
    rw [hfst, hsnd, mergedOf_append]
    refine ⟨?_, ?_, ?_, ?_, ?_, ?_, ?_, ?_⟩
    · rw [chainFromB_append, A1, ← A2, B1]
      rfl
    · rw [chainEnd_append, ← A2, B2]
    · rw [A3, B3, List.append_assoc]
    · rw [B4, A4]
    · rw [B5, A5]
    · rw [B6, A6]
    · rw [B7, A7]
    · rw [B8, A8]

theorem mem_insertRange {a r : Range} : ∀ {l : List Range},
    a ∈ insertRange r l ↔ a = r ∨ a ∈ l := by
  intro l
  induction l with
  | nil => simp [insertRange]
  | cons x xs ih =>
    by_cases h : rangeLE r x
    · simp [insertRange, h]
    · simp only [insertRange, if_neg h, List.mem_cons, ih]
      tauto

theorem mem_sortRanges {a : Range} : ∀ {l : List Range},
    a ∈ sortRanges l ↔ a ∈ l := by
  intro l
  induction l with
  | nil => simp [sortRanges]
  | cons x xs ih =>
    simp only [sortRanges, List.foldr_cons] at *
    rw [mem_insertRange, ih]
    simp

/-- Membership after `cumulateBoundedRange`: the new range is present
exactly when it survives the `exclusiveEndBlock ≤ storeInitialBlock`
filter. -/
theorem mem_cumulateBoundedRange {x : Range} (s : Squashable) (br : Range) :
    x ∈ (cumulateBoundedRange s br).ranges ↔
      x ∈ s.ranges ∨ (x = br ∧ s.storeInitialBlock < br.exclusiveEndBlock) := by
  by_cases h : br.exclusiveEndBlock ≤ s.storeInitialBlock
  · simp only [cumulateBoundedRange, if_pos h]
    constructor
    · exact fun hx => Or.inl hx
    · rintro (hx | ⟨rfl, hlt⟩)
      · exact hx
      · omega
  · simp only [cumulateBoundedRange, if_neg h]
    rw [mem_sortRanges]
    simp only [List.mem_append, List.mem_singleton]
    constructor
    · rintro (hx | rfl)
      · exact Or.inl hx
      · exact Or.inr ⟨rfl, by omega⟩
    · rintro (hx | ⟨rfl, _⟩)
      · exact Or.inl hx
      · exact Or.inr rfl

/-- The first loop of `squash`: fields other than the pending list are
untouched, the error is `none` exactly when no sub-range starts before the
module's initial block, and every pending range afterwards was already
pending or is a surviving input range. -/
theorem cumulateWithCheck_spec : ∀ (l : List Range) (s : Squashable),
    (cumulateWithCheck s l).1.name = s.name ∧
    (cumulateWithCheck s l).1.moduleInitialBlock = s.moduleInitialBlock ∧
    (cumulateWithCheck s l).1.storeInitialBlock = s.storeInitialBlock ∧
    (cumulateWithCheck s l).1.storeSaveInterval = s.storeSaveInterval ∧
    (cumulateWithCheck s l).1.targetExclusiveBlock = s.targetExclusiveBlock ∧
    (cumulateWithCheck s l).1.nextExpectedStartBlock = s.nextExpectedStartBlock ∧
    (cumulateWithCheck s l).1.targetReached = s.targetReached ∧
    ((cumulateWithCheck s l).2 = none ↔
      ∀ br ∈ l, s.moduleInitialBlock ≤ br.startBlock) ∧
    (∀ x ∈ (cumulateWithCheck s l).1.ranges,
      x ∈ s.ranges ∨ (x ∈ l ∧ s.storeInitialBlock < x.exclusiveEndBlock)) := by
  intro l
  induction l with
  | nil =>
    intro s
    refine ⟨rfl, rfl, rfl, rfl, rfl, rfl, rfl, by simp [cumulateWithCheck], ?_⟩
    intro x hx
    exact Or.inl hx
  | cons br rest ih =>
    intro s
    by_cases h : br.startBlock < s.moduleInitialBlock
    · refine ⟨?_, ?_, ?_, ?_, ?_, ?_, ?_, ?_, ?_⟩ <;>
        simp only [cumulateWithCheck, if_pos h]
      · exact Iff.intro (by simp) (fun hall => absurd (hall br (by simp)) (by omega))
      · exact fun x hx => Or.inl hx
    · obtain ⟨C1, C2, C3, C4, C5, C6, C7, C8, C9⟩ := ih (cumulateBoundedRange s br)
      have hfields : (cumulateBoundedRange s br).name = s.name ∧
          (cumulateBoundedRange s br).moduleInitialBlock = s.moduleInitialBlock ∧
          (cumulateBoundedRange s br).storeInitialBlock = s.storeInitialBlock ∧
          (cumulateBoundedRange s br).storeSaveInterval = s.storeSaveInterval ∧
          (cumulateBoundedRange s br).targetExclusiveBlock = s.targetExclusiveBlock ∧
          (cumulateBoundedRange s br).nextExpectedStartBlock = s.nextExpectedStartBlock ∧
          (cumulateBoundedRange s br).targetReached = s.targetReached := by
        by_cases hd : br.exclusiveEndBlock ≤ s.storeInitialBlock <;>
          simp [cumulateBoundedRange, hd]
      obtain ⟨F1, F2, F3, F4, F5, F6, F7⟩ := hfields
      have hstep : cumulateWithCheck s (br :: rest) =
          cumulateWithCheck (cumulateBoundedRange s br) rest := by
        simp only [cumulateWithCheck, if_neg h]
      rw [hstep]
      refine ⟨C1.trans F1, C2.trans F2, C3.trans F3, C4.trans F4, C5.trans F5,
        C6.trans F6, C7.trans F7, ?_, ?_⟩
      · rw [C8, F2]
        constructor
        · intro hall b hb
          rcases List.mem_cons.mp hb with rfl | hmem
          · omega
          · exact hall b hmem
        · intro hall b hb
          exact hall b (List.mem_cons_of_mem _ hb)
      · intro x hx
        rcases C9 x hx with hmem | ⟨hmem, hend⟩
        · rcases (mem_cumulateBoundedRange s br).mp hmem with hold | ⟨rfl, hlt⟩
          · exact Or.inl hold
          · exact Or.inr ⟨List.mem_cons_self _ _, hlt⟩
        · rw [F3] at hend
          exact Or.inr ⟨List.mem_cons_of_mem _ hmem, hend⟩

/-- Every sub-range produced by `splitAux` (any fuel) is non-degenerate
(`start < end`). -/
theorem splitAux_valid : ∀ (interval fuel start stop : Nat),
    ∀ p ∈ splitAux interval fuel start stop, p.startBlock < p.exclusiveEndBlock := by
  intro interval fuel
  induction fuel with
  | zero =>
    intro start stop p hp
    simp [splitAux] at hp
  | succ n ih =>
    intro start stop p hp
    rw [splitAux] at hp
    split at hp
    · simp at hp
    · rename_i hcond
      push_neg at hcond
      obtain ⟨hiz, hlt⟩ := hcond
      have hipos : 0 < interval := Nat.pos_of_ne_zero hiz
      have hnxt : start < min stop ((start / interval + 1) * interval) := by
        have hmod := Nat.mod_lt start hipos
        have hdm := Nat.div_add_mod start interval
        have hexp : (start / interval + 1) * interval =
            interval * (start / interval) + interval := by ring
        omega
      rcases List.mem_cons.mp hp with rfl | hmem
      · exact hnxt
      · exact ih (min stop ((start / interval + 1) * interval)) stop p hmem

/-- Every sub-range produced by `Range.split` is non-degenerate
(`start < end`). -/
theorem split_valid (r : Range) (interval : Nat) :
    ∀ p ∈ Range.split r interval, p.startBlock < p.exclusiveEndBlock :=
  splitAux_valid interval (r.exclusiveEndBlock - r.startBlock)
    r.startBlock r.exclusiveEndBlock

/-- `squash`: the merged ranges chain from the incoming
`nextExpectedStartBlock` (which afterwards equals the chain's end); every
pending range afterwards, and every merged range, was already pending or
came from splitting the incoming range; the identifying fields are
untouched; and on error nothing is merged. -/
theorem squash_spec (s : Squashable) (r : Range) :
    chainFromB s.nextExpectedStartBlock (mergedOf (squash s r).2.1) = true ∧
    (squash s r).1.nextExpectedStartBlock =
      chainEnd s.nextExpectedStartBlock (mergedOf (squash s r).2.1) ∧
    (squash s r).1.name = s.name ∧
    (squash s r).1.moduleInitialBlock = s.moduleInitialBlock ∧
    (squash s r).1.storeInitialBlock = s.storeInitialBlock ∧
    (squash s r).1.storeSaveInterval = s.storeSaveInterval ∧
    (squash s r).1.targetExclusiveBlock = s.targetExclusiveBlock ∧
    (∀ x ∈ (squash s r).1.ranges, x ∈ s.ranges ∨
      (x ∈ Range.split r s.storeSaveInterval ∧
        s.storeInitialBlock < x.exclusiveEndBlock)) ∧
    (∀ x ∈ mergedOf (squash s r).2.1, x ∈ s.ranges ∨
      (x ∈ Range.split r s.storeSaveInterval ∧
        s.storeInitialBlock < x.exclusiveEndBlock)) ∧
    ((squash s r).2.2 = none ↔
      ∀ br ∈ Range.split r s.storeSaveInterval, s.moduleInitialBlock ≤ br.startBlock) ∧
    ((squash s r).2.2 ≠ none → (squash s r).2.1 = []) := by
  obtain ⟨C1, C2, C3, C4, C5, C6, C7, C8, C9⟩ :=
    cumulateWithCheck_spec (Range.split r s.storeSaveInterval) s
  rcases hcum : (cumulateWithCheck s (Range.split r s.storeSaveInterval)).2 with _ | err
  · -- no error: squash runs mergeMany on the cumulated state
    have heq : squash s r =
        ((mergeMany (cumulateWithCheck s (Range.split r s.storeSaveInterval)).1
            (Range.split r s.storeSaveInterval).length).1,
         (mergeMany (cumulateWithCheck s (Range.split r s.storeSaveInterval)).1
            (Range.split r s.storeSaveInterval).length).2, none) := by
      simp only [squash]
      rw [hcum]
    obtain ⟨M1, M2, M3, M4, M5, M6, M7, M8⟩ :=
      mergeMany_spec (Range.split r s.storeSaveInterval).length
        (cumulateWithCheck s (Range.split r s.storeSaveInterval)).1
    rw [heq]
    simp only
    rw [C6] at M1 M2
    refine ⟨M1, M2, M4.trans C1, M5.trans C2, M6.trans C3, M7.trans C4, M8.trans C5,
      ?_, ?_, ?_, ?_⟩
    · intro x hx
      refine C9 x ?_
      rw [M3]
      exact List.mem_append_right _ hx
    · intro x hx
      refine C9 x ?_
      rw [M3]
      exact List.mem_append_left _ hx
    · rw [← C8, hcum]
      simp
    · intro hcontra
      exact absurd rfl hcontra
  · -- error: nothing merged
    have heq : squash s r =
        ((cumulateWithCheck s (Range.split r s.storeSaveInterval)).1, [], some err) := by
      simp only [squash]
      rw [hcum]
    rw [heq]
    simp only [mergedOf_nil]
    refine ⟨rfl, C6, C1, C2, C3, C4, C5, C9, by simp, ?_, by simp⟩
    · rw [← C8, hcum]

/-- `squashSeq` over any sequence of squash requests: the merged ranges
chain from the initial `nextExpectedStartBlock`, which afterwards equals
the chain's end; merged and still-pending ranges are either initially
pending or non-degenerate split products; identifying fields are
untouched. -/
theorem squashSeq_spec : ∀ (rs : List Range) (s : Squashable),
    chainFromB s.nextExpectedStartBlock (mergedOf (squashSeq s rs).2.1) = true ∧
    (squashSeq s rs).1.nextExpectedStartBlock =
      chainEnd s.nextExpectedStartBlock (mergedOf (squashSeq s rs).2.1) ∧
    (squashSeq s rs).1.name = s.name ∧
    (squashSeq s rs).1.moduleInitialBlock = s.moduleInitialBlock ∧
    (squashSeq s rs).1.storeInitialBlock = s.storeInitialBlock ∧
    (squashSeq s rs).1.storeSaveInterval = s.storeSaveInterval ∧
    (squashSeq s rs).1.targetExclusiveBlock = s.targetExclusiveBlock ∧
    (∀ x ∈ (squashSeq s rs).1.ranges,
      x ∈ s.ranges ∨ x.startBlock < x.exclusiveEndBlock) ∧
    (∀ x ∈ mergedOf (squashSeq s rs).2.1,
      x ∈ s.ranges ∨ x.startBlock < x.exclusiveEndBlock) := by
  intro rs
  induction rs with
  | nil =>
    intro s
    exact ⟨rfl, rfl, rfl, rfl, rfl, rfl, rfl, fun x hx => Or.inl hx, fun x hx => by
      simp [squashSeq, mergedOf_nil] at hx⟩
  | cons r rest ih =>
    intro s
    obtain ⟨S1, S2, S3, S4, S5, S6, S7, S8, S9, S10, S11⟩ := squash_spec s r
    have hvalid : ∀ x, (x ∈ s.ranges ∨
        (x ∈ Range.split r s.storeSaveInterval ∧
          s.storeInitialBlock < x.exclusiveEndBlock)) →
        (x ∈ s.ranges ∨ x.startBlock < x.exclusiveEndBlock) := by
      rintro x (hx | ⟨hx, _⟩)
      · exact Or.inl hx
      · exact Or.inr (split_valid r s.storeSaveInterval x hx)
    rcases herr : (squash s r).2.2 with _ | err
    · -- success: recurse
      have heq : squashSeq s (r :: rest) =
          ((squashSeq (squash s r).1 rest).1,
           (squash s r).2.1 ++ (squashSeq (squash s r).1 rest).2.1,
           (squashSeq (squash s r).1 rest).2.2) := by
        simp only [squashSeq]
        rw [herr]
      obtain ⟨B1, B2, B3, B4, B5, B6, B7, B8, B9⟩ := ih (squash s r).1
      rw [heq]
      simp only [mergedOf_append]
      rw [S2] at B1 B2
      refine ⟨?_, ?_, B3.trans S3, B4.trans S4, B5.trans S5, B6.trans S6, B7.trans S7,
        ?_, ?_⟩
      · rw [chainFromB_append, S1, B1]
        rfl
      · rw [chainEnd_append, B2]
      · intro x hx
        rcases B8 x hx with hold | hv
        · exact hvalid x (S8 x hold)
        · exact Or.inr hv
      · intro x hx
        rw [List.mem_append] at hx
        rcases hx with hx | hx
        · exact hvalid x (S9 x hx)
        · rcases B9 x hx with hold | hv
          · exact hvalid x (S8 x hold)
          · exact Or.inr hv
    · -- error: the sequence stops after this squash
      have heq : squashSeq s (r :: rest) =
          ((squash s r).1, (squash s r).2.1, some err) := by
        simp only [squashSeq]
        rw [herr]
      rw [heq]
      exact ⟨S1, S2, S3, S4, S5, S6, S7,
        fun x hx => hvalid x (S8 x hx), fun x hx => hvalid x (S9 x hx)⟩

/-! ## C2: contiguity of merges -/

/-- C2: starting from a fresh Squashable (as built by `NewSquasher` for a
store with no prior persisted state), any sequence of `squash` calls merges
a contiguous, strictly increasing chain of ranges beginning at the module's
initial block: each merged range starts exactly where the previous one
ended (`chainFromB`), the first one starts at `moduleInitialBlock`,
every merged range is non-degenerate (so starts strictly increase), and
`nextExpectedStartBlock` always equals the exclusive end of the last merged
range.  Ranges whose start differs from `nextExpectedStartBlock` stay
buffered in the pending list (`mergeLoop` stops at them) until the chain
reaches them. -/
theorem squashable_contiguity (name : String) (moduleInit target interval : Nat)
    (rs : List Range) :
    chainFromB moduleInit
      (mergedOf (squashSeq (newSquashable name moduleInit target interval) rs).2.1) = true ∧
    (squashSeq (newSquashable name moduleInit target interval) rs).1.nextExpectedStartBlock =
      chainEnd moduleInit
        (mergedOf (squashSeq (newSquashable name moduleInit target interval) rs).2.1) ∧
    ∀ x ∈ mergedOf (squashSeq (newSquashable name moduleInit target interval) rs).2.1,
      x.startBlock < x.exclusiveEndBlock := by
  obtain ⟨S1, S2, _, _, _, _, _, _, S9⟩ :=
    squashSeq_spec rs (newSquashable name moduleInit target interval)
  refine ⟨S1, S2, ?_⟩
  intro x hx
  rcases S9 x hx with hold | hv
  · simp [newSquashable] at hold
  · exact hv

/-- Witness for C2: two fragments arriving out of order (`[10,20)` before
`[0,10)`) are merged in block order, contiguously from 0, and
`nextExpectedStartBlock` ends at 20. -/
theorem squashable_contiguity_witness :
    chainFromB 0
      (mergedOf (squashSeq (newSquashable "A" 0 20 10) [⟨10, 20⟩, ⟨0, 10⟩]).2.1) = true ∧
    (squashSeq (newSquashable "A" 0 20 10) [⟨10, 20⟩, ⟨0, 10⟩]).1.nextExpectedStartBlock = 20 := by
  have h := squashable_contiguity "A" 0 20 10 [⟨10, 20⟩, ⟨0, 10⟩]
  exact ⟨h.1, h.2.1.trans (by decide)⟩

/-! ## C6: squash rejects sub-ranges before the module's initial block -/

/-- C6: `squash` returns an error exactly when splitting the incoming range
at `storeSaveInterval` multiples yields a sub-range starting before the
module's initial block, and in that case nothing at all is merged (the
merge loop is never entered, so in particular that sub-range is not
merged). -/
theorem squash_early_start_error (s : Squashable) (r : Range) :
    ((squash s r).2.2 ≠ none ↔
      ∃ br ∈ Range.split r s.storeSaveInterval, br.startBlock < s.moduleInitialBlock) ∧
    ((squash s r).2.2 ≠ none → (squash s r).2.1 = []) := by
  obtain ⟨_, _, _, _, _, _, _, _, _, S10, S11⟩ := squash_spec s r
  refine ⟨?_, S11⟩
  constructor
  · intro h
    by_contra hno
    push_neg at hno
    exact h (S10.mpr fun br hbr => hno br hbr)
  · intro hex h
    obtain ⟨br, hbr, hlt⟩ := hex
    have := S10.mp h br hbr
    omega

/-- Witness for C6: a request `[0, 10)` against a module whose initial
block is 10 errors out and merges nothing. -/
theorem squash_early_start_error_witness :
    (squash (newSquashable "A" 10 100 10) ⟨0, 10⟩).2.2 ≠ none ∧
    (squash (newSquashable "A" 10 100 10) ⟨0, 10⟩).2.1 = [] := by
  have h := squash_early_start_error (newSquashable "A" 10 100 10) ⟨0, 10⟩
  have herr : (squash (newSquashable "A" 10 100 10) ⟨0, 10⟩).2.2 ≠ none :=
    h.1.mpr ⟨⟨0, 10⟩, by decide, by decide⟩
  exact ⟨herr, h.2 herr⟩

/-! ## C9: sub-ranges ending at or before the store's initial block -/

/-- C9 counterexample: the claim fails as stated, because a sub-range whose
exclusive end is at or before the store's initial block can still start
before the *module's* initial block (possible when the store was loaded
from a snapshot, so `storeInitialBlock > moduleInitialBlock`), and then
`squash` returns an error rather than dropping it silently.  Here the
module starts at 50, the store is loaded up to 500, and the squash request
`[0, 100)` — whose single split piece ends at `100 ≤ 500` — errors out. -/
theorem squash_drop_claim_cex :
    (⟨0, 100⟩ : Range) ∈ Range.split ⟨0, 100⟩
      (⟨"A", 50, 500, [], 100, 1000, 500, false⟩ : Squashable).storeSaveInterval ∧
    (⟨0, 100⟩ : Range).exclusiveEndBlock ≤
      (⟨"A", 50, 500, [], 100, 1000, 500, false⟩ : Squashable).storeInitialBlock ∧
    (squash ⟨"A", 50, 500, [], 100, 1000, 500, false⟩ ⟨0, 100⟩).2.2 ≠ none := by
  decide

/-- C9 (amended): a sub-range whose exclusive end is at or before the
store's initial block *and* whose start is not before the module's initial
block is silently dropped by `squash`: provided every split piece passes
the initial-block check (so no error) and the piece is not already pending,
it is never added to the pending list, never merged, and the call returns
no error. -/
theorem squash_drops_bounded_range (s : Squashable) (r br : Range)
    (hmem : br ∈ Range.split r s.storeSaveInterval)
    (hend : br.exclusiveEndBlock ≤ s.storeInitialBlock)
    (hstarts : ∀ b ∈ Range.split r s.storeSaveInterval,
      s.moduleInitialBlock ≤ b.startBlock)
    (hnew : br ∉ s.ranges) :
    (squash s r).2.2 = none ∧
    br ∉ (squash s r).1.ranges ∧
    Event.merge br ∉ (squash s r).2.1 := by
  obtain ⟨S1, S2, S3, S4, S5, S6, S7, S8, S9, S10, S11⟩ := squash_spec s r
  have hnoerr : (squash s r).2.2 = none := S10.mpr hstarts
  refine ⟨hnoerr, ?_, ?_⟩
  · intro hin
    rcases S8 br hin with hold | ⟨_, hlt⟩
    · exact hnew hold
    · omega
  · intro hin
    rcases S9 br (mem_of_merge_mem hin) with hold | ⟨_, hlt⟩
    · exact hnew hold
    · omega

/-! ## C1: what happens after each merge -/

/-- The merge loop's event trace is exactly the concatenation of
`stepEvents` over the merged ranges, in merge order. -/
theorem mergeLoop_events_shape (name : String) (interval target : Nat)
    (ranges : List Range) : ∀ (next : Nat) (tr : Bool),
    (mergeLoop name interval target next tr ranges).2.2.2 =
      (mergedOf (mergeLoop name interval target next tr ranges).2.2.2).flatMap
        (stepEvents name interval target) := by
  induction ranges with
  | nil =>
    intro next tr
    rfl
  | cons r rest ih =>
    intro next tr
    by_cases hne : next = r.startBlock
    · subst hne
      have H := ih r.exclusiveEndBlock
        (if (r.exclusiveEndBlock == target) = true then true else tr)
      clear ih
      cases hbd : (r.exclusiveEndBlock % interval == 0) <;>
        cases hht : (r.exclusiveEndBlock == target) <;>
        rw [hht] at H <;>
        simp only [Bool.false_eq_true, if_false, if_true, eq_self_iff_true] at H <;>
        simp [mergeLoop, hbd, hht, stepEvents, mergedOf_merge_cons, mergedOf_write_cons,
          mergedOf_delete_cons, mergedOf_notify_cons, mergedOf_append, mergedOf_nil, ← H]
    · simp [mergeLoop, if_pos hne, mergedOf]

theorem write_mem_step (name : String) (interval target : Nat) (x : Range) (e : Nat) :
    Event.writeState e ∈ stepEvents name interval target x ↔
      x.exclusiveEndBlock = e ∧ x.exclusiveEndBlock % interval = 0 := by
  by_cases hb : x.exclusiveEndBlock % interval = 0 <;>
    by_cases ht : x.exclusiveEndBlock = target
  · have hb' : (x.exclusiveEndBlock % interval == 0) = true := by simp [hb]
    have ht' : (x.exclusiveEndBlock == target) = true := by simp [ht]
    simp [stepEvents, hb', ht', hb]
    exact eq_comm
  · have hb' : (x.exclusiveEndBlock % interval == 0) = true := by simp [hb]
    have ht' : (x.exclusiveEndBlock == target) = false := by simp [ht]
    simp [stepEvents, hb', ht', hb]
    exact eq_comm
  · have hb' : (x.exclusiveEndBlock % interval == 0) = false := by simp [hb]
    have ht' : (x.exclusiveEndBlock == target) = true := by simp [ht]
    simp [stepEvents, hb', ht', hb]
  · have hb' : (x.exclusiveEndBlock % interval == 0) = false := by simp [hb]
    have ht' : (x.exclusiveEndBlock == target) = false := by simp [ht]
    simp [stepEvents, hb', ht', hb]

theorem delete_mem_step (name : String) (interval target : Nat) (x : Range) (e : Nat) :
    Event.deleteFragment e ∈ stepEvents name interval target x ↔
      x.exclusiveEndBlock = e ∧ x.exclusiveEndBlock % interval ≠ 0 := by
  by_cases hb : x.exclusiveEndBlock % interval = 0 <;>
    by_cases ht : x.exclusiveEndBlock = target
  · have hb' : (x.exclusiveEndBlock % interval == 0) = true := by simp [hb]
    have ht' : (x.exclusiveEndBlock == target) = true := by simp [ht]
    simp [stepEvents, hb', ht', hb]
  · have hb' : (x.exclusiveEndBlock % interval == 0) = true := by simp [hb]
    have ht' : (x.exclusiveEndBlock == target) = false := by simp [ht]
    simp [stepEvents, hb', ht', hb]
  · have hb' : (x.exclusiveEndBlock % interval == 0) = false := by simp [hb]
    have ht' : (x.exclusiveEndBlock == target) = true := by simp [ht]
    simp [stepEvents, hb', ht', hb]
    exact eq_comm
  · have hb' : (x.exclusiveEndBlock % interval == 0) = false := by simp [hb]
    have ht' : (x.exclusiveEndBlock == target) = false := by simp [ht]
    simp [stepEvents, hb', ht', hb]
    exact eq_comm

theorem notify_mem_step (name : String) (interval target : Nat) (x : Range)
    (nm : String) (e : Nat) :
    Event.notify nm e ∈ stepEvents name interval target x ↔
      nm = name ∧ e = x.exclusiveEndBlock ∧ x.exclusiveEndBlock = target := by
  by_cases hb : x.exclusiveEndBlock % interval = 0 <;>
    by_cases ht : x.exclusiveEndBlock = target
  · have hb' : (x.exclusiveEndBlock % interval == 0) = true := by simp [hb]
    have ht' : (x.exclusiveEndBlock == target) = true := by simp [ht]
    simp only [stepEvents, hb', ht', if_true, List.mem_cons, List.mem_append,
      List.mem_singleton, List.not_mem_nil]
    simp [ht]
  · have hb' : (x.exclusiveEndBlock % interval == 0) = true := by simp [hb]
    have ht' : (x.exclusiveEndBlock == target) = false := by simp [ht]
    simp only [stepEvents, hb', ht', List.mem_cons, List.mem_append,
      List.mem_singleton, List.not_mem_nil]
    simp [ht]
  · have hb' : (x.exclusiveEndBlock % interval == 0) = false := by simp [hb]
    have ht' : (x.exclusiveEndBlock == target) = true := by simp [ht]
    simp only [stepEvents, hb', ht', List.mem_cons, List.mem_append,
      List.mem_singleton, List.not_mem_nil]
    simp [ht]
  · have hb' : (x.exclusiveEndBlock % interval == 0) = false := by simp [hb]
    have ht' : (x.exclusiveEndBlock == target) = false := by simp [ht]
    simp only [stepEvents, hb', ht', List.mem_cons, List.mem_append,
      List.mem_singleton, List.not_mem_nil]
    simp [ht]

/-- C1 counterexample: merging the fragment `[10, 20)` with save interval
10 and target block 30 ends on a boundary (`20 % 10 = 0`) and writes the
snapshot, but neither deletes the `.partial` fragment nor notifies: the
code deletes the fragment only on non-boundary merges, and notifies only
when the merged end equals `targetExclusiveBlock`. -/
theorem squasher_boundary_claim_cex :
    (20 : Nat) % 10 = 0 ∧
    Event.merge ⟨10, 20⟩ ∈
      (mergeAvailablePartials ⟨"A", 0, 0, [⟨10, 20⟩], 10, 30, 10, false⟩).2 ∧
    Event.writeState 20 ∈
      (mergeAvailablePartials ⟨"A", 0, 0, [⟨10, 20⟩], 10, 30, 10, false⟩).2 ∧
    Event.deleteFragment 20 ∉
      (mergeAvailablePartials ⟨"A", 0, 0, [⟨10, 20⟩], 10, 30, 10, false⟩).2 ∧
    Event.notify "A" 20 ∉
      (mergeAvailablePartials ⟨"A", 0, 0, [⟨10, 20⟩], 10, 30, 10, false⟩).2 := by
  decide

/-- C1 (amended): after `mergeAvailablePartials` merges a fragment ending
at `e`, it writes the complete snapshot (`WriteState e`) when
`e % storeSaveInterval = 0` and deletes the `.partial` fragment
(`DeletePartialFile e`) only when `e % storeSaveInterval ≠ 0`;
`notifier.Notify(moduleName, e)` is emitted exactly when `e` equals
`targetExclusiveBlock` (not at every boundary).  The first conjunct gives
the full per-merge trace: `stepEvents` for each merged range, in order. -/
theorem mergeAvailablePartials_persistence (s : Squashable) :
    (mergeAvailablePartials s).2 =
      (mergedOf (mergeAvailablePartials s).2).flatMap
        (stepEvents s.name s.storeSaveInterval s.targetExclusiveBlock) ∧
    (∀ e, Event.writeState e ∈ (mergeAvailablePartials s).2 ↔
      ∃ x ∈ mergedOf (mergeAvailablePartials s).2,
        x.exclusiveEndBlock = e ∧ e % s.storeSaveInterval = 0) ∧
    (∀ e, Event.deleteFragment e ∈ (mergeAvailablePartials s).2 ↔
      ∃ x ∈ mergedOf (mergeAvailablePartials s).2,
        x.exclusiveEndBlock = e ∧ e % s.storeSaveInterval ≠ 0) ∧
    (∀ nm e, Event.notify nm e ∈ (mergeAvailablePartials s).2 ↔
      nm = s.name ∧ e = s.targetExclusiveBlock ∧
        ∃ x ∈ mergedOf (mergeAvailablePartials s).2, x.exclusiveEndBlock = e) := by
  have hshape : (mergeAvailablePartials s).2 =
      (mergedOf (mergeAvailablePartials s).2).flatMap
        (stepEvents s.name s.storeSaveInterval s.targetExclusiveBlock) :=
    mergeLoop_events_shape s.name s.storeSaveInterval s.targetExclusiveBlock
      s.ranges s.nextExpectedStartBlock s.targetReached
  refine ⟨hshape, ?_, ?_, ?_⟩
  · intro e
    have h : Event.writeState e ∈
        (mergedOf (mergeAvailablePartials s).2).flatMap
          (stepEvents s.name s.storeSaveInterval s.targetExclusiveBlock) ↔
        ∃ x ∈ mergedOf (mergeAvailablePartials s).2,
          x.exclusiveEndBlock = e ∧ e % s.storeSaveInterval = 0 := by
      simp only [List.mem_flatMap, write_mem_step]
      constructor
      · rintro ⟨x, hx, rfl, hm⟩
        exact ⟨x, hx, rfl, hm⟩
      · rintro ⟨x, hx, rfl, hm⟩
        exact ⟨x, hx, rfl, hm⟩
    rw [← hshape] at h
    exact h
  · intro e
    have h : Event.deleteFragment e ∈
        (mergedOf (mergeAvailablePartials s).2).flatMap
          (stepEvents s.name s.storeSaveInterval s.targetExclusiveBlock) ↔
        ∃ x ∈ mergedOf (mergeAvailablePartials s).2,
          x.exclusiveEndBlock = e ∧ e % s.storeSaveInterval ≠ 0 := by
      simp only [List.mem_flatMap, delete_mem_step]
      constructor
      · rintro ⟨x, hx, rfl, hm⟩
        exact ⟨x, hx, rfl, hm⟩
      · rintro ⟨x, hx, rfl, hm⟩
        exact ⟨x, hx, rfl, hm⟩
    rw [← hshape] at h
    exact h
  · intro nm e
    have h : Event.notify nm e ∈
        (mergedOf (mergeAvailablePartials s).2).flatMap
          (stepEvents s.name s.storeSaveInterval s.targetExclusiveBlock) ↔
        nm = s.name ∧ e = s.targetExclusiveBlock ∧
          ∃ x ∈ mergedOf (mergeAvailablePartials s).2, x.exclusiveEndBlock = e := by
      simp only [List.mem_flatMap, notify_mem_step]
      constructor
      · rintro ⟨x, hx, rfl, rfl, hxt⟩
        exact ⟨rfl, hxt, x, hx, rfl⟩
      · rintro ⟨rfl, rfl, x, hx, hxe⟩
        exact ⟨x, hx, rfl, hxe.symm, hxe⟩
    rw [← hshape] at h
    exact h

/-- Witness for C1 (amended): in the counterexample state, the
notification iff rules out `Notify("A", 20)` since the target is 30. -/
theorem mergeAvailablePartials_persistence_witness :
    Event.notify "A" 20 ∉
      (mergeAvailablePartials ⟨"A", 0, 0, [⟨10, 20⟩], 10, 30, 10, false⟩).2 := by
  have h := (mergeAvailablePartials_persistence
    ⟨"A", 0, 0, [⟨10, 20⟩], 10, 30, 10, false⟩).2.2.2 "A" 20
  intro hmem
  have hx := h.mp hmem
  exact absurd hx.2.1 (by decide)

/-- Witness for C9 (amended): a store loaded up to block 500 silently
drops the already-covered request `[100, 200)`. -/
theorem squash_drops_bounded_range_witness :
    (squash ⟨"A", 0, 500, [], 100, 1000, 500, false⟩ ⟨100, 200⟩).2.2 = none ∧
    (⟨100, 200⟩ : Range) ∉
      (squash ⟨"A", 0, 500, [], 100, 1000, 500, false⟩ ⟨100, 200⟩).1.ranges ∧
    Event.merge ⟨100, 200⟩ ∉
      (squash ⟨"A", 0, 500, [], 100, 1000, 500, false⟩ ⟨100, 200⟩).2.1 :=
  squash_drops_bounded_range ⟨"A", 0, 500, [], 100, 1000, 500, false⟩ ⟨100, 200⟩ ⟨100, 200⟩
    (by decide) (by decide) (by decide) (by decide)

/-! ## C8: Stages.NextJob scan order -/

theorem find?_append_some {α : Type} {p : α → Bool} : ∀ {l1 : List α} {a : α},
    l1.find? p = some a → ∀ (l2 : List α), (l1 ++ l2).find? p = some a := by
  intro l1
  induction l1 with
  | nil => intro a h l2; simp [List.find?] at h
  | cons x t ih =>
    intro a h l2
    cases hp : p x
    · rw [List.find?_cons_of_neg _ (by simp [hp])] at h
      rw [List.cons_append, List.find?_cons_of_neg _ (by simp [hp])]
      exact ih h l2
    · rw [List.find?_cons_of_pos _ hp] at h
      rw [List.cons_append, List.find?_cons_of_pos _ hp]
      exact h

theorem find?_append_none {α : Type} {p : α → Bool} : ∀ {l1 : List α},
    l1.find? p = none → ∀ (l2 : List α), (l1 ++ l2).find? p = l2.find? p := by
  intro l1
  induction l1 with
  | nil => intro h l2; rfl
  | cons x t ih =>
    intro h l2
    cases hp : p x
    · rw [List.find?_cons_of_neg _ (by simp [hp])] at h
      rw [List.cons_append, List.find?_cons_of_neg _ (by simp [hp])]
      exact ih h l2
    · rw [List.find?_cons_of_pos _ hp] at h
      exact absurd h (by simp)

/-- The inner loop of `Stages.NextJob` is a first-match search over the
stages of one segment, highest stage first. -/
theorem scanStageList_eq_find (s : Stages) (seg : Nat) : ∀ (sts : List Nat),
    Stages.scanStageList s seg sts =
      (sts.map fun st => (⟨seg, st⟩ : JobUnit)).find? s.unitOk := by
  intro sts
  induction sts with
  | nil => rfl
  | cons st rest ih =>
    cases hp : s.unitOk ⟨seg, st⟩
    · rw [List.map_cons, List.find?_cons_of_neg _ (by simp [hp])]
      simp only [Stages.scanStageList, hp, Bool.false_eq_true, if_false]
      exact ih
    · rw [List.map_cons, List.find?_cons_of_pos _ hp]
      simp [Stages.scanStageList, hp]

/-- The outer loop of `Stages.NextJob` is a first-match search over the
whole candidate grid in scan order. -/
theorem scanSegments_eq_find (s : Stages) : ∀ (segs : List Nat),
    Stages.scanSegments s segs =
      (segs.flatMap fun seg => (Stages.stagesDesc s).map fun st => (⟨seg, st⟩ : JobUnit)).find?
        s.unitOk := by
  intro segs
  induction segs with
  | nil => rfl
  | cons seg rest ih =>
    rw [List.flatMap_cons]
    have hsl := scanStageList_eq_find s seg (Stages.stagesDesc s)
    cases hfind : ((Stages.stagesDesc s).map fun st => (⟨seg, st⟩ : JobUnit)).find? s.unitOk with
    | some u =>
      rw [find?_append_some hfind]
      simp only [Stages.scanSegments, hsl, hfind]
    | none =>
      rw [find?_append_none hfind]
      simp only [Stages.scanSegments, hsl, hfind]
      exact ih

/-- The composite per-unit test of the Go loop equals the claim's
predicate: under `stageFirst ≤ segment`, the code's
`segment ≤ stageFirst` short-circuit in `dependenciesCompleted` is the
claim's "unit is in its stage's first segment". -/
theorem unitOk_eq_claimOk (s : Stages) (u : JobUnit) :
    s.unitOk u = Stages.claimOk s u := by
  simp only [Stages.unitOk, Stages.claimOk, Stages.dependenciesCompleted]
  cases hpend : (s.state u.segment u.stage == UnitState.pending)
  · simp [hpend]
  · by_cases hle : s.stageFirstD u.stage ≤ u.segment
    · by_cases heq : u.segment ≤ s.stageFirstD u.stage
      · have heq' : u.segment = s.stageFirstD u.stage := le_antisymm heq hle
        simp [hpend, hle, heq, heq']
      · have hne : ¬ (u.segment == s.stageFirstD u.stage) = true := by
          simp only [beq_iff_eq]
          omega
        cases hz : (u.stage == 0)
        · simp [hpend, hle, heq, hz, if_neg heq, hne]
        · simp [hpend, hle, heq, hz, if_neg heq]
    · simp [hpend, hle]

/-- C8: `Stages.NextJob` returns the first unit — scanning segments in
increasing order from the segmenter's first index and, within a segment,
stages from highest to lowest (`candidates`) — that is pending, whose
stage has started (`segment ≥ stage's first index`), and whose
dependencies are completed; and under `segment ≥ stage's first index`,
`dependenciesCompleted` holds exactly when the unit sits in its stage's
first segment, or its stage is 0, or every lower stage of the previous
segment is completed. -/
theorem stages_nextJob_spec (s : Stages) :
    s.nextJobUnit = (Stages.candidates s).find? (Stages.claimOk s) ∧
    (∀ u : JobUnit, s.stageFirstD u.stage ≤ u.segment →
      (s.dependenciesCompleted u = true ↔
        (u.segment = s.stageFirstD u.stage ∨ u.stage = 0 ∨
          ∀ i < u.stage, s.state (u.segment - 1) i = UnitState.completed))) := by
  constructor
  · have hfun : s.unitOk = Stages.claimOk s := funext (unitOk_eq_claimOk s)
    rw [Stages.nextJobUnit, scanSegments_eq_find, ← hfun]
    rfl
  · intro u hle
    simp only [Stages.dependenciesCompleted]
    by_cases heq : u.segment ≤ s.stageFirstD u.stage
    · have heq' : u.segment = s.stageFirstD u.stage := le_antisymm heq hle
      simp [heq, heq']
    · by_cases hz : u.stage = 0
      · simp [heq, hz]
      · have hz' : ¬ (u.stage == 0) = true := by simp [hz]
        simp only [if_neg heq, hz', Bool.false_eq_true, if_false,
          List.all_eq_true, List.mem_range, beq_iff_eq]
        constructor
        · intro h
          exact Or.inr (Or.inr h)
        · rintro (h | h | h)
          · omega
          · exact absurd h hz
          · exact h

/-- Witness for C8: in a 3-stage all-pending matrix (segments 0..3, all
stage first-indexes 0), the unit at segment 1, stage 2 does not have its
dependencies completed. -/
theorem stages_nextJob_spec_witness :
    Stages.dependenciesCompleted ⟨0, 3, [0, 0, 0], fun _ _ => UnitState.pending⟩ ⟨1, 2⟩ =
      false := by
  have h := (stages_nextJob_spec ⟨0, 3, [0, 0, 0], fun _ _ => UnitState.pending⟩).2
    ⟨1, 2⟩ (by decide)
  cases hd : Stages.dependenciesCompleted ⟨0, 3, [0, 0, 0], fun _ _ => UnitState.pending⟩ ⟨1, 2⟩
  · rfl
  · rw [hd] at h
    have hr := h.mp rfl
    have : ¬ ((1 : Nat) = Stages.stageFirstD ⟨0, 3, [0, 0, 0], fun _ _ => UnitState.pending⟩ 2 ∨
        (2 : Nat) = 0 ∨
        ∀ i < 2, (fun _ _ => UnitState.pending : Nat → Nat → UnitState) (1 - 1) i =
          UnitState.completed) := by
      decide
    exact absurd hr this

end Substreams
